import Mathlib

/-!
Verification of the Gemini gateway server (`gemini_api_server.py`).

The development embeds, on `List Char`:
  * the two response-normalization pipelines of the source
    (line 87: `.strip().replace("```json", "").replace("```", "").strip()`;
    lines 110/144: `.strip().replace("`", "").lstrip("json").strip()`),
  * a model of Python's `json.loads` (strict JSON parsing, returning
    `Option Json`, `none` on a syntax error),
  * the four endpoint handlers with their truthiness-based success test and
    HTTP status codes, with the completion backend and the Telegram call
    abstracted as function parameters so that invocations can be observed,
  * an inductive grammar `Gram` of JSON value texts, used to state claims
    that quantify over "valid JSON" raw completion texts.
-/

/-- The backtick character, `` ` `` (U+0060). -/
def tick : Char := Char.ofNat 96

/-- The three-character fence marker removed by `replace("```", "")`. -/
def fenceWord : List Char := [tick, tick, tick]

/-- The seven-character tagged fence marker removed by `replace("```json", "")`. -/
def fenceJsonWord : List Char := [tick, tick, tick, 'j', 's', 'o', 'n']

/-- Characters of the set passed to `lstrip("json")`. -/
def isJsonTagChar (c : Char) : Bool := c = 'j' || c = 's' || c = 'o' || c = 'n'

/-- ASCII whitespace stripped by Python's `str.strip()` with no argument. -/
def isPySpace (c : Char) : Bool :=
  c = ' ' || c = '\t' || c = '\n' || c = '\r' || c = Char.ofNat 11 || c = Char.ofNat 12

/-- Python `str.strip()`: drop leading and trailing whitespace. -/
def pyStrip (s : List Char) : List Char :=
  ((s.dropWhile isPySpace).reverse.dropWhile isPySpace).reverse

/-- Fuel-driven worker for `removeAll`: Python's `str.replace(pat, "")`,
scanning left to right and removing each non-overlapping occurrence of `pat`. -/
def removeAllGo : Nat → List Char → List Char → List Char
  | 0, _, s => s
  | fuel+1, pat, s =>
    match s with
    | [] => []
    | c :: rest =>
      if pat.isPrefixOf (c :: rest) then removeAllGo fuel pat ((c :: rest).drop pat.length)
      else c :: removeAllGo fuel pat rest

/-- Python `s.replace(pat, "")` for a non-empty pattern `pat`. -/
def removeAll (pat s : List Char) : List Char := removeAllGo s.length pat s

/-- Normalizer of `recognize_documents_with_gemini` (source line 87):
`response.text.strip().replace("```json", "").replace("```", "").strip()`. -/
def normalizeDoc (s : List Char) : List Char :=
  pyStrip (removeAll fenceWord (removeAll fenceJsonWord (pyStrip s)))

/-- Normalizer of `parse_custom_deal_with_gemini` (source line 110) and of
`get_buyout_plans_with_gemini` (source line 144, identical code):
`response.text.strip().replace("`", "").lstrip("json").strip()`.
Python's `lstrip("json")` removes every leading character drawn from the
character set of `"json"`. -/
def normalizeDeal (s : List Char) : List Char :=
  pyStrip ((removeAll [tick] (pyStrip s)).dropWhile isJsonTagChar)

/-- The normalizer as claim C1 words it: trim, remove all backticks, then,
if the remaining text begins with the case-insensitive literal `json`, strip
exactly that four-character prefix and re-trim; otherwise return the string
unmodified. This definition follows the claim's words (not the source) and is
compared against the source-derived normalizers. -/
def specNormalize (s : List Char) : List Char :=
  let t := (pyStrip s).filter (fun c => c != tick)
  if (t.take 4).map Char.toLower = ['j', 's', 'o', 'n'] then pyStrip (t.drop 4) else t

/-! ## A model of Python's `json.loads` -/

/-- Parsed JSON values as returned by `json.loads`. Numbers are represented
exactly as a decimal mantissa and a power-of-ten exponent (`m * 10 ^ e`),
so that zero-ness (Python falsiness) is decidable without floating point. -/
inductive Json where
  | null
  | bool (b : Bool)
  | num (m : Int) (e : Int)
  | str (s : List Char)
  | arr (xs : List Json)
  | obj (kvs : List (List Char × Json))

/-- Python truthiness of a parsed JSON value: `None`, `False`, numeric zero,
and empty strings/lists/dicts are falsy, everything else truthy. -/
def jsonTruthy : Json → Bool
  | .null => false
  | .bool b => b
  | .num m _ => !(m = 0 : Bool)
  | .str s => !s.isEmpty
  | .arr xs => !xs.isEmpty
  | .obj kvs => !kvs.isEmpty

/-- JSON whitespace skipped by the parser (space, tab, newline, return). -/
def isJsonWs (c : Char) : Bool := c = ' ' || c = '\t' || c = '\n' || c = '\r'

/-- Skip leading JSON whitespace. -/
def skipWs (s : List Char) : List Char := s.dropWhile isJsonWs

/-- JSON two-character escapes and the character they decode to. -/
def escMap (c : Char) : Option Char :=
  if c = '"' then some '"'
  else if c = '\\' then some '\\'
  else if c = '/' then some '/'
  else if c = 'b' then some (Char.ofNat 8)
  else if c = 'f' then some (Char.ofNat 12)
  else if c = 'n' then some '\n'
  else if c = 'r' then some '\r'
  else if c = 't' then some '\t'
  else none

def isHexChar (c : Char) : Bool :=
  c.isDigit || ('a' ≤ c && c ≤ 'f') || ('A' ≤ c && c ≤ 'F')

def hexVal (c : Char) : Nat :=
  if c.isDigit then c.toNat - 48 else if 'a' ≤ c then c.toNat - 87 else c.toNat - 55

/-- Parse the body of a JSON string literal after the opening quote, up to and
including the closing quote. Returns the decoded characters and the rest. -/
def parseStrBody : List Char → Option (List Char × List Char)
  | [] => none
  | '\\' :: 'u' :: h1 :: h2 :: h3 :: h4 :: r =>
    if isHexChar h1 && isHexChar h2 && isHexChar h3 && isHexChar h4 then
      (parseStrBody r).map (fun p =>
        (Char.ofNat (4096 * hexVal h1 + 256 * hexVal h2 + 16 * hexVal h3 + hexVal h4) :: p.1, p.2))
    else none
  | '\\' :: e :: r =>
    match escMap e with
    | some c => (parseStrBody r).map (fun p => (c :: p.1, p.2))
    | none => none
  | c :: r =>
    if c = '"' then some ([], r)
    else if c = '\\' then none
    else if 32 ≤ c.toNat then (parseStrBody r).map (fun p => (c :: p.1, p.2))
    else none

/-- Decimal digits to a natural number. -/
def digitsToNat (l : List Char) : Nat := l.foldl (fun a c => 10 * a + (c.toNat - 48)) 0

/-- Parse a JSON number token (Python's regex
`-?(?:0|[1-9]\d*)(?:\.\d+)?(?:[eE][-+]?\d+)?`), returning mantissa and
power-of-ten exponent. -/
def parseNum (s : List Char) : Option ((Int × Int) × List Char) :=
  let p := match s with
    | '-' :: r => (true, r)
    | _ => (false, s)
  let neg := p.1
  let s1 := p.2
  let ipRes : Option (List Char × List Char) :=
    match s1 with
    | '0' :: r => some (['0'], r)
    | c :: r =>
      if '1' ≤ c && c ≤ '9' then some (c :: r.takeWhile Char.isDigit, r.dropWhile Char.isDigit)
      else none
    | [] => none
  match ipRes with
  | none => none
  | some (ip, s2) =>
    let fq : List Char × List Char :=
      match s2 with
      | '.' :: r =>
        let ds := r.takeWhile Char.isDigit
        if ds.isEmpty then ([], s2) else (ds, r.dropWhile Char.isDigit)
      | _ => ([], s2)
    let fp := fq.1
    let s3 := fq.2
    let eq3 : Int × List Char :=
      match s3 with
      | e :: r =>
        if e = 'e' || e = 'E' then
          let sq : Bool × List Char :=
            match r with
            | '+' :: r2 => (false, r2)
            | '-' :: r2 => (true, r2)
            | _ => (false, r)
          let ds := sq.2.takeWhile Char.isDigit
          if ds.isEmpty then (0, s3)
          else ((if sq.1 then -(digitsToNat ds : Int) else (digitsToNat ds : Int)),
                sq.2.dropWhile Char.isDigit)
        else (0, s3)
      | [] => (0, s3)
    let expVal := eq3.1
    let s4 := eq3.2
    let mantissa : Int := (if neg then -1 else 1) * (digitsToNat (ip ++ fp) : Int)
    some ((mantissa, expVal - fp.length), s4)

/-- Parser modes: a single value, the items of an array (after `[` and
whitespace, at a value start), or the members of an object (at a key start). -/
inductive PTok where
  | pv
  | parr
  | pobj

/-- Heterogeneous parse results for the three modes. -/
inductive PR where
  | v (j : Json)
  | vs (js : List Json)
  | kvs (ps : List (List Char × Json))

/-- Fuel-driven recursive-descent JSON parser, modelling Python's `json.loads`
scanner. In mode `pv` the input starts at a value (whitespace already
skipped); `parr`/`pobj` parse the comma-separated tail of a non-empty
array/object including the closing bracket. -/
def parseGo : Nat → PTok → List Char → Option (PR × List Char)
  | 0, _, _ => none
  | fuel+1, .pv, s =>
    match s with
    | 'n' :: 'u' :: 'l' :: 'l' :: r => some (.v .null, r)
    | 't' :: 'r' :: 'u' :: 'e' :: r => some (.v (.bool true), r)
    | 'f' :: 'a' :: 'l' :: 's' :: 'e' :: r => some (.v (.bool false), r)
    | '"' :: r => (parseStrBody r).map (fun p => (.v (.str p.1), p.2))
    | '[' :: r =>
      match skipWs r with
      | ']' :: r2 => some (.v (.arr []), r2)
      | r1 =>
        match parseGo fuel .parr r1 with
        | some (.vs js, r2) => some (.v (.arr js), r2)
        | _ => none
    | '{' :: r =>
      match skipWs r with
      | '}' :: r2 => some (.v (.obj []), r2)
      | r1 =>
        match parseGo fuel .pobj r1 with
        | some (.kvs ps, r2) => some (.v (.obj ps), r2)
        | _ => none
    | _ => (parseNum s).map (fun p => (.v (.num p.1.1 p.1.2), p.2))
  | fuel+1, .parr, s =>
    match parseGo fuel .pv s with
    | some (.v j, r) =>
      match skipWs r with
      | ',' :: r2 =>
        match parseGo fuel .parr (skipWs r2) with
        | some (.vs js, r3) => some (.vs (j :: js), r3)
        | _ => none
      | ']' :: r2 => some (.vs [j], r2)
      | _ => none
    | _ => none
  | fuel+1, .pobj, s =>
    match s with
    | '"' :: r =>
      match parseStrBody r with
      | some (k, r1) =>
        match skipWs r1 with
        | ':' :: r2 =>
          match parseGo fuel .pv (skipWs r2) with
          | some (.v j, r3) =>
            match skipWs r3 with
            | ',' :: r4 =>
              match parseGo fuel .pobj (skipWs r4) with
              | some (.kvs ps, r5) => some (.kvs ((k, j) :: ps), r5)
              | _ => none
            | '}' :: r4 => some (.kvs [(k, j)], r4)
            | _ => none
          | _ => none
        | _ => none
      | none => none
    | _ => none

/-- Model of Python's `json.loads`: parse one JSON value with surrounding
whitespace allowed; `none` models a raised `json.JSONDecodeError`. -/
def json_loads (s : List Char) : Option Json :=
  match parseGo (2 * s.length + 4) PTok.pv (skipWs s) with
  | some (PR.v j, r) => if (skipWs r).isEmpty then some j else none
  | _ => none

/-! ## Endpoint handlers -/

/-- Outcome of an endpoint handler: a 200 body, or an `HTTPException` with a
status code. -/
inductive ApiResult where
  | ok (v : Json)
  | err (code : Nat)

/-- The two prompt branches of `recognize_documents_with_gemini`. -/
inductive PromptKind where
  | domestic
  | foreign
deriving DecidableEq

/-- Decoded images (the base64-to-bitmap decode is a trusted external step and
is modelled as the identity on opaque byte lists). -/
abbrev Img := List Char

/-- The literal the country field is compared against (source line 66). -/
def rfCountry : List Char := ['Р', 'Ф']

/-- Prompt selection of source lines 66-83: the domestic prompt for the exact
string `РФ`, the foreign prompt for everything else. -/
def selectPrompt (country : List Char) : PromptKind :=
  if country = rfCountry then .domestic else .foreign

/-- `recognize_documents_with_gemini` (source lines 54-93), with the Gemini
call abstracted as `backend` (`none` = raised exception / refusal, caught by
the function's `except` which returns `None`). The second component records
the backend invocations made. -/
def recognize_documents_with_gemini
    (backend : PromptKind → List Img → Option (List Char))
    (images : List Img) (country : List Char) :
    Option Json × List (PromptKind × List Img) :=
  let pk := selectPrompt country
  let data :=
    match backend pk images with
    | some raw => json_loads (normalizeDoc raw)
    | none => none
  (data, [(pk, images)])

/-- `api_recognize_documents` (source lines 155-161): decode the images,
call the Gemini helper, and return the parsed data if truthy, else raise
HTTP 500. No check of any kind is made on `images_base64` or `country`. -/
def api_recognize_documents
    (backend : PromptKind → List Img → Option (List Char))
    (images_base64 : List (List Char)) (country : List Char) :
    ApiResult × List (PromptKind × List Img) :=
  let images : List Img := images_base64
  let r := recognize_documents_with_gemini backend images country
  (match r.1 with
   | some v => if jsonTruthy v then ApiResult.ok v else ApiResult.err 500
   | none => ApiResult.err 500,
   r.2)

/-- `parse_custom_deal_with_gemini` (source lines 95-115): normalize the
completion text and `json.loads` it; any exception yields `None`. -/
def parse_custom_deal_with_gemini (completion : Option (List Char)) : Option Json :=
  match completion with
  | some raw => json_loads (normalizeDeal raw)
  | none => none

/-- `api_parse_deal` (source lines 163-168): 200 with the data if truthy,
otherwise HTTP 400. -/
def api_parse_deal (completion : Option (List Char)) : ApiResult :=
  match parse_custom_deal_with_gemini completion with
  | some v => if jsonTruthy v then ApiResult.ok v else ApiResult.err 400
  | none => ApiResult.err 400

/-- `get_buyout_plans_with_gemini` (source lines 117-149): same normalization
and parse as the deal parser (line 144 is identical to line 110). -/
def get_buyout_plans_with_gemini (completion : Option (List Char)) : Option Json :=
  match completion with
  | some raw => json_loads (normalizeDeal raw)
  | none => none

/-- `api_generate_buyout_plans` (source lines 170-175): 200 with the data if
truthy, otherwise HTTP 400. -/
def api_generate_buyout_plans (completion : Option (List Char)) : ApiResult :=
  match get_buyout_plans_with_gemini completion with
  | some v => if jsonTruthy v then ApiResult.ok v else ApiResult.err 400
  | none => ApiResult.err 400

/-- The `/notify` request body. -/
structure NotifyRequest where
  user_id : Int
  text : List Char

/-- Outcome of the Telegram sendMessage call. -/
inductive TgOutcome where
  | okSent
  | httpError (desc : List Char)

/-- `notify_user` (source lines 177-194): compare the `x-internal-secret`
header (absent modelled as `none`) against the configured secret; on mismatch
raise 401 without calling Telegram. Otherwise call Telegram exactly once and
map its outcome. The boolean records whether the upstream call was made. -/
def notify_user (headerSecret : Option (List Char)) (internalSecret : List Char)
    (req : NotifyRequest) (telegram : NotifyRequest → TgOutcome) : ApiResult × Bool :=
  if headerSecret = some internalSecret then
    match telegram req with
    | .okSent => (ApiResult.ok (Json.obj [(['s','u','c','c','e','s','s'], Json.bool true)]), true)
    | .httpError _ => (ApiResult.err 400, true)
  else (ApiResult.err 401, false)

/-! ## A grammar of JSON texts

`Gram GK.val s` formalizes "the character sequence `s` parses successfully as
one JSON value" (the RFC 8259 grammar implemented by Python's `json.loads`):
it is used to state the claims that quantify over all raw completion texts
consisting of valid JSON. -/

/-- Characters allowed unescaped inside a JSON string literal. -/
def isPlainStrChar (c : Char) : Bool := c != '"' && c != '\\' && decide (32 ≤ c.toNat)

/-- A JSON escape sequence: one of the eight two-character escapes or a
`\uXXXX` escape. -/
def IsEsc (e : List Char) : Prop :=
  (∃ c, e = ['\\', c] ∧ (escMap c).isSome = true) ∨
  (∃ h1 h2 h3 h4, e = ['\\', 'u', h1, h2, h3, h4] ∧
    isHexChar h1 = true ∧ isHexChar h2 = true ∧ isHexChar h3 = true ∧ isHexChar h4 = true)

/-- The body of a JSON string literal: a sequence of plain characters and
escape sequences. -/
inductive StrBody : List Char → Prop where
  | nil : StrBody []
  | plain (c : Char) (s : List Char) : isPlainStrChar c = true → StrBody s → StrBody (c :: s)
  | esc (e s : List Char) : IsEsc e → StrBody s → StrBody (e ++ s)

/-- JSON whitespace runs. -/
def Ws (w : List Char) : Prop := ∀ c ∈ w, isJsonWs c = true

/-- The nine non-zero decimal digits. -/
def nonzeroDigits : List Char := ['1', '2', '3', '4', '5', '6', '7', '8', '9']

/-- Integer part of a JSON number: `0` or a non-zero digit followed by digits. -/
def IntPart (ip : List Char) : Prop :=
  ip = ['0'] ∨ ∃ d ds, ip = d :: ds ∧ d ∈ nonzeroDigits ∧ ∀ c ∈ ds, c.isDigit = true

/-- Optional fraction part: empty or a dot followed by at least one digit. -/
def FracPart (fp : List Char) : Prop :=
  fp = [] ∨ ∃ ds, fp = '.' :: ds ∧ ds ≠ [] ∧ ∀ c ∈ ds, c.isDigit = true

/-- Optional exponent part: empty or `e`/`E`, an optional sign, and digits. -/
def ExpPart (ep : List Char) : Prop :=
  ep = [] ∨ ∃ e sg ds, ep = e :: (sg ++ ds) ∧ (e = 'e' ∨ e = 'E') ∧
    (sg = [] ∨ sg = ['+'] ∨ sg = ['-']) ∧ ds ≠ [] ∧ ∀ c ∈ ds, c.isDigit = true

/-- A JSON number token. -/
def IsNum (s : List Char) : Prop :=
  ∃ sg ip fp ep, s = sg ++ ip ++ fp ++ ep ∧ (sg = [] ∨ sg = ['-']) ∧
    IntPart ip ∧ FracPart fp ∧ ExpPart ep

/-- Grammar kinds: a single value, array element lists, object member lists. -/
inductive GK where
  | val
  | elems
  | members

/-- The JSON text grammar. `elems` derives the comma-separated contents
between `[` and `]` of a non-empty array, `members` likewise for objects. -/
inductive Gram : GK → List Char → Prop where
  | nullLit : Gram .val ['n', 'u', 'l', 'l']
  | trueLit : Gram .val ['t', 'r', 'u', 'e']
  | falseLit : Gram .val ['f', 'a', 'l', 's', 'e']
  | numLit (s : List Char) : IsNum s → Gram .val s
  | strLit (b : List Char) : StrBody b → Gram .val ('"' :: (b ++ ['"']))
  | arrNil (w : List Char) : Ws w → Gram .val ('[' :: (w ++ [']']))
  | arrCons (es : List Char) : Gram .elems es → Gram .val ('[' :: (es ++ [']']))
  | objNil (w : List Char) : Ws w → Gram .val ('{' :: (w ++ ['}']))
  | objCons (ms : List Char) : Gram .members ms → Gram .val ('{' :: (ms ++ ['}']))
  | elemsOne (w1 v w2 : List Char) : Ws w1 → Gram .val v → Ws w2 →
      Gram .elems (w1 ++ v ++ w2)
  | elemsCons (w1 v w2 rest : List Char) : Ws w1 → Gram .val v → Ws w2 →
      Gram .elems rest → Gram .elems (w1 ++ v ++ w2 ++ ',' :: rest)
  | membersOne (w1 b w2 w3 v w4 : List Char) : Ws w1 → StrBody b → Ws w2 → Ws w3 →
      Gram .val v → Ws w4 →
      Gram .members (w1 ++ ('"' :: (b ++ ['"'])) ++ w2 ++ ':' :: (w3 ++ v ++ w4))
  | membersCons (w1 b w2 w3 v w4 rest : List Char) : Ws w1 → StrBody b → Ws w2 → Ws w3 →
      Gram .val v → Ws w4 → Gram .members rest →
      Gram .members
        (w1 ++ ('"' :: (b ++ ['"'])) ++ w2 ++ ':' :: (w3 ++ v ++ w4 ++ ',' :: rest))

/-- The five characters any of the three replaced patterns are built from. -/
def tickJsonChars : List Char := [tick, 'j', 's', 'o', 'n']

/-- Characters that can occur in a JSON number token. -/
def isNumChar (c : Char) : Bool :=
  c.isDigit || c = '-' || c = '+' || c = '.' || c = 'e' || c = 'E'

/-- A raw completion: text wrapped in a triple-backtick fence with the
`json` language tag on the opening fence. -/
def fenceTag (inner : List Char) : List Char :=
  fenceJsonWord ++ '\n' :: (inner ++ '\n' :: fenceWord)

/-- A raw completion: text wrapped in a bare triple-backtick fence. -/
def fenceBare (inner : List Char) : List Char :=
  fenceWord ++ '\n' :: (inner ++ '\n' :: fenceWord)

/-! ## Facts about `removeAll` (Python `replace(pat, "")`) -/

lemma isPrefixOf_length_le : ∀ {x y : List Char}, x.isPrefixOf y = true → x.length ≤ y.length
  | [], _, _ => Nat.zero_le _
  | _ :: _, [], h => by simp [List.isPrefixOf] at h
  | a :: as, b :: bs, h => by
    simp only [List.isPrefixOf, Bool.and_eq_true, beq_iff_eq] at h
    exact Nat.succ_le_succ (isPrefixOf_length_le h.2)

lemma isPrefixOf_append_extend :
    ∀ {x y : List Char} (z : List Char), x.isPrefixOf y = true → x.isPrefixOf (y ++ z) = true
  | [], _, _, _ => by simp [List.isPrefixOf]
  | _ :: _, [], _, h => by simp [List.isPrefixOf] at h
  | a :: as, b :: bs, z, h => by
    simp only [List.isPrefixOf, Bool.and_eq_true, beq_iff_eq] at h ⊢
    exact ⟨h.1, isPrefixOf_append_extend z h.2⟩

lemma isPrefixOf_of_append_sep :
    ∀ (pat s : List Char) {ch : Char} {t : List Char},
      ch ∉ pat → pat.isPrefixOf (s ++ ch :: t) = true → pat.isPrefixOf s = true
  | [], _, _, _, _, _ => by simp [List.isPrefixOf]
  | q :: qs, [], ch, t, hch, h => by
    simp only [List.nil_append, List.isPrefixOf, Bool.and_eq_true, beq_iff_eq] at h
    exact absurd (h.1 ▸ List.mem_cons_self q qs) hch
  | q :: qs, a :: s', ch, t, hch, h => by
    simp only [List.cons_append, List.isPrefixOf, Bool.and_eq_true, beq_iff_eq] at h ⊢
    exact ⟨h.1, isPrefixOf_of_append_sep qs s' (fun hm => hch (List.mem_cons_of_mem q hm)) h.2⟩

lemma removeAllGo_succ_cons (f : Nat) (pat : List Char) (c : Char) (rest : List Char) :
    removeAllGo (f + 1) pat (c :: rest) =
      if pat.isPrefixOf (c :: rest) then removeAllGo f pat ((c :: rest).drop pat.length)
      else c :: removeAllGo f pat rest := rfl

lemma removeAllGo_fuel {pat : List Char} (hp : pat ≠ []) :
    ∀ f1 f2 s, s.length ≤ f1 → s.length ≤ f2 → removeAllGo f1 pat s = removeAllGo f2 pat s := by
  intro f1
  induction f1 with
  | zero =>
    intro f2 s h1 _
    have hs : s = [] := List.eq_nil_of_length_eq_zero (Nat.le_zero.mp h1)
    subst hs
    cases f2 <;> rfl
  | succ n ih =>
    intro f2 s h1 h2
    cases f2 with
    | zero =>
      have hs : s = [] := List.eq_nil_of_length_eq_zero (Nat.le_zero.mp h2)
      subst hs; rfl
    | succ m =>
      cases s with
      | nil => rfl
      | cons c rest =>
        rw [removeAllGo_succ_cons, removeAllGo_succ_cons]
        have hpl : 1 ≤ pat.length := List.length_pos.mpr hp
        have hr1 : rest.length ≤ n := by
          simp only [List.length_cons] at h1; omega
        have hr2 : rest.length ≤ m := by
          simp only [List.length_cons] at h2; omega
        by_cases h : pat.isPrefixOf (c :: rest) = true
        · rw [if_pos h, if_pos h]
          have hd : ((c :: rest).drop pat.length).length ≤ rest.length := by
            simp only [List.length_drop, List.length_cons]
            omega
          exact ih m _ (le_trans hd hr1) (le_trans hd hr2)
        · rw [if_neg h, if_neg h]
          exact congrArg (c :: ·) (ih m rest hr1 hr2)

lemma removeAll_nil (pat : List Char) : removeAll pat [] = [] := rfl

lemma removeAll_cons_pos {pat : List Char} (hp : pat ≠ []) {c : Char} {rest : List Char}
    (h : pat.isPrefixOf (c :: rest) = true) :
    removeAll pat (c :: rest) = removeAll pat ((c :: rest).drop pat.length) := by
  have hpl : 1 ≤ pat.length := List.length_pos.mpr hp
  have hd : ((c :: rest).drop pat.length).length ≤ rest.length := by
    simp only [List.length_drop, List.length_cons]; omega
  show removeAllGo (rest.length + 1) pat (c :: rest) = _
  rw [removeAllGo_succ_cons, if_pos h]
  exact removeAllGo_fuel hp _ _ _ hd (le_refl _)

lemma removeAll_cons_neg {pat : List Char} {c : Char} {rest : List Char}
    (h : pat.isPrefixOf (c :: rest) = false) :
    removeAll pat (c :: rest) = c :: removeAll pat rest := by
  have hp : pat ≠ [] := by
    intro he; subst he; simp [List.isPrefixOf] at h
  show removeAllGo (rest.length + 1) pat (c :: rest) = _
  rw [removeAllGo_succ_cons, if_neg (by simp [h])]
  exact congrArg (c :: ·) (removeAllGo_fuel hp _ _ _ (le_refl _) (le_refl _))

lemma removeAll_clean_head {q : Char} {qs : List Char} :
    ∀ (a t : List Char), q ∉ a → removeAll (q :: qs) (a ++ t) = a ++ removeAll (q :: qs) t
  | [], t, _ => by simp
  | c :: a', t, h => by
    have hcq : ¬(q = c) := fun he => h (he ▸ List.mem_cons_self c a')
    have hm : (q :: qs).isPrefixOf (c :: (a' ++ t)) = false := by
      simp only [List.isPrefixOf, Bool.and_eq_false_iff]
      left; simp [beq_eq_false_iff_ne, hcq]
    calc removeAll (q :: qs) ((c :: a') ++ t) = c :: removeAll (q :: qs) (a' ++ t) :=
          removeAll_cons_neg hm
      _ = c :: (a' ++ removeAll (q :: qs) t) := by
          rw [removeAll_clean_head a' t (fun hm' => h (List.mem_cons_of_mem c hm'))]
      _ = (c :: a') ++ removeAll (q :: qs) t := rfl

lemma removeAll_eq_self {q : Char} {qs b : List Char} (h : q ∉ b) :
    removeAll (q :: qs) b = b := by
  have h2 : removeAll (q :: qs) (b ++ []) = b ++ removeAll (q :: qs) [] :=
    removeAll_clean_head b [] h
  simpa [removeAll_nil] using h2

lemma removeAll_split_sep_aux {q : Char} {qs : List Char} {ch : Char} (hch : ch ∉ q :: qs) :
    ∀ n s t, s.length ≤ n →
      removeAll (q :: qs) (s ++ ch :: t) =
        removeAll (q :: qs) s ++ ch :: removeAll (q :: qs) t := by
  intro n
  induction n with
  | zero =>
    intro s t h1
    have hs : s = [] := List.eq_nil_of_length_eq_zero (Nat.le_zero.mp h1)
    subst hs
    have hm : (q :: qs).isPrefixOf (ch :: t) = false := by
      simp only [List.isPrefixOf, Bool.and_eq_false_iff]
      left
      simp only [beq_eq_false_iff_ne, ne_eq]
      exact fun he => hch (he ▸ List.mem_cons_self q qs)
    simpa using removeAll_cons_neg hm
  | succ n ih =>
    intro s t h1
    cases s with
    | nil =>
      have hm : (q :: qs).isPrefixOf (ch :: t) = false := by
        simp only [List.isPrefixOf, Bool.and_eq_false_iff]
        left
        simp only [beq_eq_false_iff_ne, ne_eq]
        exact fun he => hch (he ▸ List.mem_cons_self q qs)
      simpa using removeAll_cons_neg hm
    | cons c s' =>
      have hpl : 1 ≤ (q :: qs).length := by simp
      by_cases hm : (q :: qs).isPrefixOf (c :: s') = true
      · have hml : (q :: qs).length ≤ (c :: s').length := isPrefixOf_length_le hm
        have hm2 : (q :: qs).isPrefixOf (c :: (s' ++ ch :: t)) = true := by
          have := isPrefixOf_append_extend (ch :: t) hm
          simpa using this
        have hstep : removeAll (q :: qs) ((c :: s') ++ ch :: t) =
            removeAll (q :: qs) ((c :: s').drop (q :: qs).length ++ ch :: t) := by
          have h4 := removeAll_cons_pos (List.cons_ne_nil q qs) hm2
          rw [show (c :: s') ++ ch :: t = c :: (s' ++ ch :: t) from rfl, h4]
          rw [show c :: (s' ++ ch :: t) = (c :: s') ++ ch :: t from rfl,
            List.drop_append_of_le_length hml]
        have hd : ((c :: s').drop (q :: qs).length).length ≤ n := by
          simp only [List.length_drop, List.length_cons]
          simp only [List.length_cons] at h1
          omega
        rw [hstep, ih _ t hd, removeAll_cons_pos (List.cons_ne_nil q qs) hm]
      · have hmf : (q :: qs).isPrefixOf (c :: s') = false := by
          cases hb : (q :: qs).isPrefixOf (c :: s') with
          | false => rfl
          | true => exact absurd hb hm
        have hm2 : (q :: qs).isPrefixOf (c :: (s' ++ ch :: t)) = false := by
          cases hb : (q :: qs).isPrefixOf (c :: (s' ++ ch :: t)) with
          | false => rfl
          | true =>
            have hb' : (q :: qs).isPrefixOf ((c :: s') ++ ch :: t) = true := by
              simpa using hb
            exact absurd (isPrefixOf_of_append_sep _ _ hch hb') hm
        have hs' : s'.length ≤ n := by
          simp only [List.length_cons] at h1; omega
        rw [show (c :: s') ++ ch :: t = c :: (s' ++ ch :: t) from rfl,
          removeAll_cons_neg hm2, ih s' t hs',
          removeAll_cons_neg hmf]
        rfl

lemma removeAll_split_sep {q : Char} {qs : List Char} {ch : Char} (hch : ch ∉ q :: qs)
    (s t : List Char) :
    removeAll (q :: qs) (s ++ ch :: t) =
      removeAll (q :: qs) s ++ ch :: removeAll (q :: qs) t :=
  removeAll_split_sep_aux hch s.length s t (le_refl _)

lemma removeAll_clean_tail {q : Char} {qs b : List Char}
    (hb : ∀ c ∈ b, c ∉ q :: qs) (s : List Char) :
    removeAll (q :: qs) (s ++ b) = removeAll (q :: qs) s ++ b := by
  cases b with
  | nil => simp
  | cons x b' =>
    have hx : x ∉ q :: qs := hb x (List.mem_cons_self x b')
    have hq : q ∉ b' := fun hm =>
      hb q (List.mem_cons_of_mem x hm) (List.mem_cons_self q qs)
    rw [removeAll_split_sep hx, removeAll_eq_self hq]

lemma removeAll_single (c0 : Char) : ∀ s, removeAll [c0] s = s.filter (fun c => c != c0)
  | [] => rfl
  | c :: rest => by
    by_cases h : c0 = c
    · subst h
      have hm : [c0].isPrefixOf (c0 :: rest) = true := by simp [List.isPrefixOf]
      rw [removeAll_cons_pos (by simp) hm]
      simp only [List.length_cons, List.length_nil, List.drop_succ_cons, List.drop_zero]
      rw [removeAll_single c0 rest]
      simp [List.filter_cons]
    · have hm : [c0].isPrefixOf (c :: rest) = false := by
        simp [List.isPrefixOf, beq_eq_false_iff_ne, Ne, h]
      rw [removeAll_cons_neg hm, removeAll_single c0 rest]
      have hne : (c != c0) = true := by
        simp [bne_iff_ne]
        exact fun he => h he.symm
      simp [List.filter_cons, hne]

/-! ## Facts about `pyStrip` -/

lemma pyStrip_cons_ws {c : Char} {s : List Char} (h : isPySpace c = true) :
    pyStrip (c :: s) = pyStrip s := by
  simp [pyStrip, List.dropWhile_cons, h]

lemma pyStrip_append_ws {c : Char} {s : List Char} (h : isPySpace c = true) :
    pyStrip (s ++ [c]) = pyStrip s := by
  by_cases he : (s.dropWhile isPySpace).isEmpty = true
  · have h1 : (s ++ [c]).dropWhile isPySpace = [c].dropWhile isPySpace := by
      rw [List.dropWhile_append, if_pos he]
    have h2 : [c].dropWhile isPySpace = [] := by simp [List.dropWhile_cons, h]
    have h3 : s.dropWhile isPySpace = [] := List.isEmpty_iff.mp he
    simp [pyStrip, h1, h2, h3]
  · have h1 : (s ++ [c]).dropWhile isPySpace = s.dropWhile isPySpace ++ [c] := by
      rw [List.dropWhile_append, if_neg he]
    simp only [pyStrip, h1]
    rw [show (s.dropWhile isPySpace ++ [c]).reverse = c :: (s.dropWhile isPySpace).reverse by
      simp]
    simp [List.dropWhile_cons, h]

lemma pyStrip_eq_self {hx : Char} {tx : List Char} (h1 : isPySpace hx = false)
    (h2 : ∀ d, (hx :: tx).getLast? = some d → isPySpace d = false) :
    pyStrip (hx :: tx) = hx :: tx := by
  rcases List.eq_nil_or_concat (hx :: tx) with he | ⟨L, b, hb⟩
  · exact absurd he (by simp)
  · have hb' : hx :: tx = L ++ [b] := by simpa using hb
    have hgl : (hx :: tx).getLast? = some b := by
      rw [hb']; exact List.getLast?_concat L
    have hbw : isPySpace b = false := h2 b hgl
    have hfront : (hx :: tx).dropWhile isPySpace = hx :: tx := by
      simp [List.dropWhile_cons, h1]
    rw [pyStrip, hfront, hb']
    rw [show (L ++ [b]).reverse = b :: L.reverse by simp]
    simp [List.dropWhile_cons, hbw]

lemma pyStrip_sandwich {x : List Char} {c d : Char} (hc : isPySpace c = true)
    (hd : isPySpace d = true) (hself : pyStrip x = x) :
    pyStrip (c :: (x ++ [d])) = x := by
  rw [pyStrip_cons_ws hc, pyStrip_append_ws hd, hself]

/-! ### Character-class facts -/

lemma getLast?_mem_of {l : List Char} {d : Char} (h : l.getLast? = some d) : d ∈ l := by
  rcases List.eq_nil_or_concat l with rfl | ⟨L, b, rfl⟩
  · simp at h
  · rw [List.concat_eq_append] at h ⊢
    rw [List.getLast?_concat] at h
    simp only [Option.some.injEq] at h
    subst h
    simp

lemma getLast?_cons_concat {x z : Char} {ys : List Char} :
    (x :: (ys ++ [z])).getLast? = some z := by
  rw [show x :: (ys ++ [z]) = (x :: ys) ++ [z] from rfl]
  exact List.getLast?_concat _

lemma tickJson_not_ws : ∀ c ∈ tickJsonChars, isJsonWs c = false := by decide

lemma tickJson_not_pyspace : ∀ c ∈ tickJsonChars, isPySpace c = false := by decide

lemma tickJson_not_digit : ∀ c ∈ tickJsonChars, c.isDigit = false := by decide

lemma ws_no_tick {w : List Char} (hw : Ws w) : tick ∉ w := fun hm => by
  have := hw tick hm
  have h2 : isJsonWs tick = false := by decide
  rw [h2] at this
  exact Bool.false_ne_true this

lemma ws_disjoint {w : List Char} (hw : Ws w) {ps : List Char}
    (hsub : ∀ c ∈ tick :: ps, c ∈ tickJsonChars) : ∀ c ∈ w, c ∉ tick :: ps := by
  intro c hc hp
  have h1 := hw c hc
  have h2 := tickJson_not_ws c (hsub c hp)
  rw [h2] at h1
  exact Bool.false_ne_true h1

lemma sep_not_in_pat {ps : List Char} (hsub : ∀ c ∈ tick :: ps, c ∈ tickJsonChars)
    {ch : Char} (hch : ch ∉ tickJsonChars) : ch ∉ tick :: ps :=
  fun hm => hch (hsub ch hm)

lemma isEsc_head {e : List Char} (h : IsEsc e) : ∃ t, e = '\\' :: t := by
  rcases h with ⟨c, rfl, _⟩ | ⟨h1, h2, h3, h4, rfl, _⟩
  · exact ⟨[c], rfl⟩
  · exact ⟨['u', h1, h2, h3, h4], rfl⟩

lemma escMap_some_ne_tick {c : Char} (h : (escMap c).isSome = true) : c ≠ tick := by
  intro he
  subst he
  have : escMap tick = none := by decide
  rw [this] at h
  simp at h

lemma isHexChar_ne_tick {c : Char} (h : isHexChar c = true) : c ≠ tick := by
  intro he
  subst he
  have : isHexChar tick = false := by decide
  rw [this] at h
  exact Bool.false_ne_true h

lemma isEsc_no_tick {e : List Char} (h : IsEsc e) : tick ∉ e := by
  rcases h with ⟨c, rfl, hc⟩ | ⟨h1, h2, h3, h4, rfl, hh1, hh2, hh3, hh4⟩
  · intro hm
    simp only [List.mem_cons, List.not_mem_nil, or_false] at hm
    rcases hm with hm | hm
    · exact absurd hm (by decide)
    · exact escMap_some_ne_tick hc hm.symm
  · intro hm
    simp only [List.mem_cons, List.not_mem_nil, or_false] at hm
    rcases hm with hm | hm | hm | hm | hm | hm
    · exact absurd hm (by decide)
    · exact absurd hm (by decide)
    · exact isHexChar_ne_tick hh1 hm.symm
    · exact isHexChar_ne_tick hh2 hm.symm
    · exact isHexChar_ne_tick hh3 hm.symm
    · exact isHexChar_ne_tick hh4 hm.symm

lemma nonzeroDigits_numChar : ∀ d ∈ nonzeroDigits, isNumChar d = true := by decide

lemma digit_numChar {c : Char} (h : c.isDigit = true) : isNumChar c = true := by
  simp [isNumChar, h]

lemma isnum_chars {s : List Char} (h : IsNum s) : ∀ c ∈ s, isNumChar c = true := by
  obtain ⟨sg, ip, fp, ep, rfl, hsg, hip, hfp, hep⟩ := h
  intro c hc
  simp only [List.append_assoc, List.mem_append] at hc
  rcases hc with hc | hc | hc | hc
  · rcases hsg with rfl | rfl
    · simp at hc
    · simp only [List.mem_cons, List.not_mem_nil, or_false] at hc
      subst hc; decide
  · rcases hip with rfl | ⟨d, ds, rfl, hd, hds⟩
    · simp only [List.mem_cons, List.not_mem_nil, or_false] at hc
      subst hc; decide
    · simp only [List.mem_cons] at hc
      rcases hc with rfl | hc
      · exact nonzeroDigits_numChar _ hd
      · exact digit_numChar (hds c hc)
  · rcases hfp with rfl | ⟨ds, rfl, _, hds⟩
    · simp at hc
    · simp only [List.mem_cons] at hc
      rcases hc with rfl | hc
      · decide
      · exact digit_numChar (hds c hc)
  · rcases hep with rfl | ⟨e, sg2, ds, rfl, he, hsg2, _, hds⟩
    · simp at hc
    · simp only [List.mem_cons, List.mem_append] at hc
      rcases hc with rfl | hc | hc
      · rcases he with rfl | rfl <;> decide
      · rcases hsg2 with rfl | rfl | rfl
        · simp at hc
        · simp only [List.mem_cons, List.not_mem_nil, or_false] at hc
          subst hc; decide
        · simp only [List.mem_cons, List.not_mem_nil, or_false] at hc
          subst hc; decide
      · exact digit_numChar (hds c hc)

lemma isnum_ne_nil {s : List Char} (h : IsNum s) : s ≠ [] := by
  obtain ⟨sg, ip, fp, ep, rfl, _, hip, _, _⟩ := h
  have hipne : ip ≠ [] := by
    rcases hip with rfl | ⟨d, ds, rfl, _, _⟩ <;> simp
  intro he
  simp only [List.append_assoc, List.append_eq_nil] at he
  exact hipne he.2.1

lemma isNumChar_not_pyspace {c : Char} (h : isNumChar c = true) : isPySpace c = false := by
  cases hb : isPySpace c with
  | false => rfl
  | true =>
    exfalso
    simp only [isPySpace, Bool.or_eq_true, decide_eq_true_eq] at hb
    rcases hb with ((((rfl | rfl) | rfl) | rfl) | rfl) | rfl <;> revert h <;> decide

lemma isnum_no_tick {s : List Char} (h : IsNum s) : tick ∉ s := by
  intro hm
  have h1 := isnum_chars h tick hm
  have h2 : isNumChar tick = false := by decide
  rw [h2] at h1
  exact Bool.false_ne_true h1

/-! ### Closure of the grammar under pattern removal -/

lemma strbody_inv {l : List Char} (h : StrBody l) :
    l = [] ∨ (∃ c rest, l = c :: rest ∧ isPlainStrChar c = true ∧ StrBody rest) ∨
      ∃ e s', IsEsc e ∧ StrBody s' ∧ l = e ++ s' := by
  cases h with
  | nil => exact Or.inl rfl
  | plain c s hc hs => exact Or.inr (Or.inl ⟨c, s, rfl, hc, hs⟩)
  | esc e s he hs => exact Or.inr (Or.inr ⟨e, s, he, hs, rfl⟩)

lemma tickJson_ne_backslash : ∀ c ∈ tickJsonChars, c ≠ '\\' := by decide

lemma strbody_drop : ∀ (pref : List Char) {s : List Char},
    (∀ c ∈ pref, c ≠ '\\') → pref.isPrefixOf s = true → StrBody s →
    StrBody (s.drop pref.length)
  | [], s, _, _, hs => by simpa using hs
  | p :: ps2, s, hnb, hpre, hs => by
    cases s with
    | nil => simp [List.isPrefixOf] at hpre
    | cons a s2 =>
      simp only [List.isPrefixOf, Bool.and_eq_true, beq_iff_eq] at hpre
      obtain ⟨rfl, hpre2⟩ := hpre
      rcases strbody_inv hs with he | ⟨c, rest, hcr, hc, hrest⟩ | ⟨e, s', hesc, hs', heq⟩
      · simp at he
      · obtain ⟨rfl, rfl⟩ : p = c ∧ s2 = rest := by
          rw [List.cons.injEq] at hcr
          exact hcr
        rw [show (p :: ps2).length = ps2.length + 1 from rfl, List.drop_succ_cons]
        exact strbody_drop ps2 (fun x hx => hnb x (List.mem_cons_of_mem p hx)) hpre2 hrest
      · exfalso
        obtain ⟨t, rfl⟩ := isEsc_head hesc
        have hpb : p = '\\' := by
          have : ('\\' :: t) ++ s' = '\\' :: (t ++ s') := rfl
          rw [this, List.cons.injEq] at heq
          exact heq.1
        exact hnb p (List.mem_cons_self p ps2) hpb

lemma strbody_removeAll {ps : List Char} (hsub : ∀ c ∈ tick :: ps, c ∈ tickJsonChars) :
    ∀ n b, b.length ≤ n → StrBody b → StrBody (removeAll (tick :: ps) b) := by
  intro n
  induction n with
  | zero =>
    intro b hb _
    have hbn : b = [] := List.eq_nil_of_length_eq_zero (Nat.le_zero.mp hb)
    subst hbn
    rw [removeAll_nil]
    exact StrBody.nil
  | succ n ih =>
    intro b hb hsb
    rcases strbody_inv hsb with rfl | ⟨c, rest, rfl, hc, hrest⟩ | ⟨e, s', hesc, hs', rfl⟩
    · rw [removeAll_nil]; exact StrBody.nil
    · have hrn : rest.length ≤ n := by
        simp only [List.length_cons] at hb; omega
      by_cases hm : (tick :: ps).isPrefixOf (c :: rest) = true
      · have hparts : tick = c ∧ ps.isPrefixOf rest = true := by
          simpa only [List.isPrefixOf, Bool.and_eq_true, beq_iff_eq] using hm
        have hdropSB : StrBody (rest.drop ps.length) :=
          strbody_drop ps
            (fun x hx => tickJson_ne_backslash x (hsub x (List.mem_cons_of_mem tick hx)))
            hparts.2 hrest
        rw [removeAll_cons_pos (List.cons_ne_nil tick ps) hm,
          show (c :: rest).drop (tick :: ps).length = rest.drop ps.length from by
            simp [List.length_cons]]
        exact ih _ (le_trans (by simp [List.length_drop]) hrn) hdropSB
      · have hmf : (tick :: ps).isPrefixOf (c :: rest) = false := by
          cases hb2 : (tick :: ps).isPrefixOf (c :: rest) with
          | false => rfl
          | true => exact absurd hb2 hm
        rw [removeAll_cons_neg hmf]
        exact StrBody.plain c _ hc (ih rest hrn hrest)
    · rw [removeAll_clean_head e s' (isEsc_no_tick hesc)]
      refine StrBody.esc e _ hesc (ih s' ?_ hs')
      obtain ⟨t, rfl⟩ := isEsc_head hesc
      simp only [List.length_append, List.length_cons] at hb
      omega

lemma isPrefixOf_cons_head_false {q c : Char} {qs rest : List Char} (h : q ≠ c) :
    (q :: qs).isPrefixOf (c :: rest) = false := by
  simp only [List.isPrefixOf, Bool.and_eq_false_iff]
  left
  simp [beq_eq_false_iff_ne, h]

lemma tick_not_in_bracket_ws {w : List Char} (hw : Ws w) {o cl : Char}
    (ho : tick ≠ o) (hc : tick ≠ cl) : tick ∉ o :: (w ++ [cl]) := by
  intro hm
  simp only [List.mem_cons, List.mem_append, List.not_mem_nil, or_false] at hm
  rcases hm with hm | hm | hm
  · exact ho hm
  · exact ws_no_tick hw hm
  · exact hc hm

lemma removeAll_quoted {ps b t : List Char} (hsub : ∀ c ∈ tick :: ps, c ∈ tickJsonChars) :
    removeAll (tick :: ps) ('"' :: (b ++ '"' :: t)) =
      '"' :: (removeAll (tick :: ps) b ++ '"' :: removeAll (tick :: ps) t) := by
  rw [removeAll_cons_neg (isPrefixOf_cons_head_false (by decide)),
    removeAll_split_sep (sep_not_in_pat hsub (by decide))]

lemma removeAll_bracketed {ps inner : List Char} (hsub : ∀ c ∈ tick :: ps, c ∈ tickJsonChars)
    {o cl : Char} (ho : tick ≠ o) (hcl : cl ∉ tickJsonChars) :
    removeAll (tick :: ps) (o :: (inner ++ [cl])) =
      o :: (removeAll (tick :: ps) inner ++ [cl]) := by
  rw [removeAll_cons_neg (isPrefixOf_cons_head_false ho),
    show inner ++ [cl] = inner ++ cl :: ([] : List Char) from rfl,
    removeAll_split_sep (sep_not_in_pat hsub hcl), removeAll_nil]

lemma gram_removeAll {ps : List Char} (hsub : ∀ c ∈ tick :: ps, c ∈ tickJsonChars) :
    ∀ {k : GK} {s : List Char}, Gram k s → Gram k (removeAll (tick :: ps) s) := by
  intro k s h
  induction h with
  | nullLit => rw [removeAll_eq_self (by decide)]; exact Gram.nullLit
  | trueLit => rw [removeAll_eq_self (by decide)]; exact Gram.trueLit
  | falseLit => rw [removeAll_eq_self (by decide)]; exact Gram.falseLit
  | numLit s hn => rw [removeAll_eq_self (isnum_no_tick hn)]; exact Gram.numLit s hn
  | strLit b hb =>
    rw [show b ++ ['"'] = b ++ '"' :: ([] : List Char) from rfl, removeAll_quoted hsub,
      removeAll_nil]
    exact Gram.strLit _ (strbody_removeAll hsub b.length b (le_refl _) hb)
  | arrNil w hw =>
    rw [removeAll_eq_self (tick_not_in_bracket_ws hw (by decide) (by decide))]
    exact Gram.arrNil w hw
  | objNil w hw =>
    rw [removeAll_eq_self (tick_not_in_bracket_ws hw (by decide) (by decide))]
    exact Gram.objNil w hw
  | arrCons es hes ih =>
    rw [removeAll_bracketed hsub (by decide) (by decide)]
    exact Gram.arrCons _ ih
  | objCons ms hms ih =>
    rw [removeAll_bracketed hsub (by decide) (by decide)]
    exact Gram.objCons _ ih
  | elemsOne w1 v w2 hw1 hv hw2 ih =>
    have e1 : (w1 ++ v) ++ w2 = w1 ++ (v ++ w2) := by simp [List.append_assoc]
    rw [e1, removeAll_clean_head w1 _ (ws_no_tick hw1),
      removeAll_clean_tail (ws_disjoint hw2 hsub) v]
    have := Gram.elemsOne w1 (removeAll (tick :: ps) v) w2 hw1 ih hw2
    simpa [List.append_assoc] using this
  | elemsCons w1 v w2 rest hw1 hv hw2 hrest ihv ihrest =>
    have e1 : ((w1 ++ v) ++ w2) ++ ',' :: rest = w1 ++ ((v ++ w2) ++ ',' :: rest) := by
      simp [List.append_assoc]
    rw [e1, removeAll_clean_head w1 _ (ws_no_tick hw1),
      removeAll_split_sep (sep_not_in_pat hsub (by decide)),
      removeAll_clean_tail (ws_disjoint hw2 hsub) v]
    have := Gram.elemsCons w1 (removeAll (tick :: ps) v) w2
      (removeAll (tick :: ps) rest) hw1 ihv hw2 ihrest
    simpa [List.append_assoc] using this
  | membersOne w1 b w2 w3 v w4 hw1 hb hw2 hw3 hv hw4 ih =>
    have e1 : ((w1 ++ ('"' :: (b ++ ['"']))) ++ w2) ++ ':' :: ((w3 ++ v) ++ w4) =
        w1 ++ ('"' :: (b ++ '"' :: (w2 ++ ':' :: (w3 ++ (v ++ w4))))) := by
      simp [List.append_assoc]
    rw [e1, removeAll_clean_head w1 _ (ws_no_tick hw1), removeAll_quoted hsub,
      removeAll_clean_head w2 _ (ws_no_tick hw2),
      removeAll_cons_neg (isPrefixOf_cons_head_false (by decide)),
      removeAll_clean_head w3 _ (ws_no_tick hw3),
      removeAll_clean_tail (ws_disjoint hw4 hsub) v]
    have := Gram.membersOne w1 (removeAll (tick :: ps) b) w2 w3
      (removeAll (tick :: ps) v) w4 hw1
      (strbody_removeAll hsub b.length b (le_refl _) hb) hw2 hw3 ih hw4
    simpa [List.append_assoc] using this
  | membersCons w1 b w2 w3 v w4 rest hw1 hb hw2 hw3 hv hw4 hrest ihv ihrest =>
    have e1 : ((w1 ++ ('"' :: (b ++ ['"']))) ++ w2) ++
          ':' :: (((w3 ++ v) ++ w4) ++ ',' :: rest) =
        w1 ++ ('"' :: (b ++ '"' :: (w2 ++ ':' :: (w3 ++ ((v ++ w4) ++ ',' :: rest))))) := by
      simp [List.append_assoc]
    rw [e1, removeAll_clean_head w1 _ (ws_no_tick hw1), removeAll_quoted hsub,
      removeAll_clean_head w2 _ (ws_no_tick hw2),
      removeAll_cons_neg (isPrefixOf_cons_head_false (by decide)),
      removeAll_clean_head w3 _ (ws_no_tick hw3),
      removeAll_split_sep (sep_not_in_pat hsub (by decide)),
      removeAll_clean_tail (ws_disjoint hw4 hsub) v]
    have := Gram.membersCons w1 (removeAll (tick :: ps) b) w2 w3
      (removeAll (tick :: ps) v) w4 (removeAll (tick :: ps) rest) hw1
      (strbody_removeAll hsub b.length b (le_refl _) hb) hw2 hw3 ihv hw4 ihrest
    simpa [List.append_assoc] using this

/-! ### Head/last character facts for grammar strings -/

lemma gram_val_shape {s : List Char} (h : Gram GK.val s) :
    (∃ hx tx, s = hx :: tx ∧ isPySpace hx = false) ∧
      ∀ d, s.getLast? = some d → isPySpace d = false := by
  cases h with
  | nullLit =>
    refine ⟨⟨'n', _, rfl, by decide⟩, ?_⟩
    intro d hd
    rw [show (['n', 'u', 'l', 'l'] : List Char).getLast? = some 'l' from rfl] at hd
    injection hd with hd
    subst hd; decide
  | trueLit =>
    refine ⟨⟨'t', _, rfl, by decide⟩, ?_⟩
    intro d hd
    rw [show (['t', 'r', 'u', 'e'] : List Char).getLast? = some 'e' from rfl] at hd
    injection hd with hd
    subst hd; decide
  | falseLit =>
    refine ⟨⟨'f', _, rfl, by decide⟩, ?_⟩
    intro d hd
    rw [show (['f', 'a', 'l', 's', 'e'] : List Char).getLast? = some 'e' from rfl] at hd
    injection hd with hd
    subst hd; decide
  | numLit s hn =>
    obtain ⟨hx, tx, rfl⟩ := List.exists_cons_of_ne_nil (isnum_ne_nil hn)
    refine ⟨⟨hx, tx, rfl, isNumChar_not_pyspace (isnum_chars hn hx (List.mem_cons_self hx tx))⟩, ?_⟩
    intro d hd
    exact isNumChar_not_pyspace (isnum_chars hn d (getLast?_mem_of hd))
  | strLit b hb =>
    refine ⟨⟨'"', _, rfl, by decide⟩, ?_⟩
    intro d hd
    rw [getLast?_cons_concat] at hd
    injection hd with hd
    subst hd; decide
  | arrNil w hw =>
    refine ⟨⟨'[', _, rfl, by decide⟩, ?_⟩
    intro d hd
    rw [getLast?_cons_concat] at hd
    injection hd with hd
    subst hd; decide
  | arrCons es hes =>
    refine ⟨⟨'[', _, rfl, by decide⟩, ?_⟩
    intro d hd
    rw [getLast?_cons_concat] at hd
    injection hd with hd
    subst hd; decide
  | objNil w hw =>
    refine ⟨⟨'{', _, rfl, by decide⟩, ?_⟩
    intro d hd
    rw [getLast?_cons_concat] at hd
    injection hd with hd
    subst hd; decide
  | objCons ms hms =>
    refine ⟨⟨'{', _, rfl, by decide⟩, ?_⟩
    intro d hd
    rw [getLast?_cons_concat] at hd
    injection hd with hd
    subst hd; decide

lemma gram_pyStrip {s : List Char} (h : Gram GK.val s) : pyStrip s = s := by
  obtain ⟨⟨hx, tx, rfl, hhx⟩, hlast⟩ := gram_val_shape h
  exact pyStrip_eq_self hhx (fun d hd => hlast d hd)

/-! ### Normalization of fenced completions -/

lemma getLast?_fence_shape (a inner : List Char) :
    (a ++ '\n' :: (inner ++ '\n' :: fenceWord)).getLast? = some tick := by
  rw [List.getLast?_append_of_ne_nil a (by simp)]
  rw [show '\n' :: (inner ++ '\n' :: fenceWord) =
    ('\n' :: inner) ++ ('\n' :: fenceWord) from rfl]
  rw [List.getLast?_append_of_ne_nil _ (by simp)]
  rfl

lemma pyStrip_fence (t inner : List Char) :
    pyStrip ((tick :: t) ++ '\n' :: (inner ++ '\n' :: fenceWord)) =
      (tick :: t) ++ '\n' :: (inner ++ '\n' :: fenceWord) := by
  rw [show (tick :: t) ++ '\n' :: (inner ++ '\n' :: fenceWord) =
    tick :: (t ++ '\n' :: (inner ++ '\n' :: fenceWord)) from rfl]
  apply pyStrip_eq_self (by decide)
  intro d hd
  rw [show tick :: (t ++ '\n' :: (inner ++ '\n' :: fenceWord)) =
    (tick :: t) ++ '\n' :: (inner ++ '\n' :: fenceWord) from rfl,
    getLast?_fence_shape] at hd
  injection hd with hd
  subst hd; decide

lemma isPrefixOf_refl : ∀ (l : List Char), l.isPrefixOf l = true
  | [] => by simp [List.isPrefixOf]
  | a :: as => by simp [List.isPrefixOf, isPrefixOf_refl as]

lemma removeAll_self_head {q : Char} {qs t : List Char} :
    removeAll (q :: qs) ((q :: qs) ++ t) = removeAll (q :: qs) t := by
  have hm : (q :: qs).isPrefixOf ((q :: qs) ++ t) = true :=
    isPrefixOf_append_extend t (isPrefixOf_refl _)
  rw [show (q :: qs) ++ t = q :: (qs ++ t) from rfl] at hm ⊢
  rw [removeAll_cons_pos (List.cons_ne_nil q qs) hm]
  rw [show q :: (qs ++ t) = (q :: qs) ++ t from rfl]
  rw [List.drop_left]

lemma fj_cons : fenceJsonWord = tick :: [tick, tick, 'j', 's', 'o', 'n'] := rfl

lemma fw_cons : fenceWord = tick :: [tick, tick] := rfl

lemma docStage1_tail (inner : List Char) :
    removeAll fenceJsonWord ('\n' :: (inner ++ '\n' :: fenceWord)) =
      '\n' :: (removeAll fenceJsonWord inner ++ '\n' :: fenceWord) := by
  rw [fj_cons]
  rw [removeAll_cons_neg (isPrefixOf_cons_head_false (by decide)),
    removeAll_split_sep
      (show ('\n' : Char) ∉ tick :: [tick, tick, 'j', 's', 'o', 'n'] by decide)]
  rw [show removeAll (tick :: [tick, tick, 'j', 's', 'o', 'n']) fenceWord =
    fenceWord from rfl]

lemma docStage1_tag (inner : List Char) :
    removeAll fenceJsonWord (fenceTag inner) =
      '\n' :: (removeAll fenceJsonWord inner ++ '\n' :: fenceWord) := by
  rw [fenceTag, fj_cons, removeAll_self_head, ← fj_cons]
  exact docStage1_tail inner

lemma docStage1_bare (inner : List Char) :
    removeAll fenceJsonWord (fenceBare inner) =
      fenceWord ++ '\n' :: (removeAll fenceJsonWord inner ++ '\n' :: fenceWord) := by
  have hjn : (('j' : Char) == '\n') = false := by decide
  have hft : ((tick : Char) == '\n') = false := by decide
  have h1 : fenceJsonWord.isPrefixOf
      (tick :: tick :: tick :: '\n' :: (inner ++ '\n' :: fenceWord)) = false := by
    simp [fj_cons, List.isPrefixOf, hjn, hft]
  have h2 : fenceJsonWord.isPrefixOf
      (tick :: tick :: '\n' :: (inner ++ '\n' :: fenceWord)) = false := by
    simp [fj_cons, List.isPrefixOf, hjn, hft]
  have h3 : fenceJsonWord.isPrefixOf
      (tick :: '\n' :: (inner ++ '\n' :: fenceWord)) = false := by
    simp [fj_cons, List.isPrefixOf, hjn, hft]
  have e1 : fenceBare inner =
      tick :: tick :: tick :: '\n' :: (inner ++ '\n' :: fenceWord) := rfl
  rw [fj_cons] at h1 h2 h3
  rw [e1, fj_cons]
  rw [removeAll_cons_neg h1, removeAll_cons_neg h2, removeAll_cons_neg h3, ← fj_cons,
    docStage1_tail inner]
  rfl

lemma docStage2 (a : List Char) :
    removeAll fenceWord ('\n' :: (a ++ '\n' :: fenceWord)) =
      '\n' :: (removeAll fenceWord a ++ ['\n']) := by
  rw [fw_cons]
  rw [removeAll_cons_neg (isPrefixOf_cons_head_false (by decide)),
    removeAll_split_sep (show ('\n' : Char) ∉ tick :: [tick, tick] by decide)]
  rw [show removeAll (tick :: [tick, tick]) (tick :: [tick, tick]) = [] from rfl]

lemma normalizeDoc_fenceTag {inner : List Char} (h : Gram GK.val inner) :
    normalizeDoc (fenceTag inner) =
      removeAll fenceWord (removeAll fenceJsonWord inner) := by
  have hstrip : pyStrip (fenceTag inner) = fenceTag inner := by
    rw [fenceTag, show fenceJsonWord = tick :: [tick, tick, 'j', 's', 'o', 'n'] from rfl]
    exact pyStrip_fence _ inner
  have hB : Gram GK.val (removeAll fenceWord (removeAll fenceJsonWord inner)) :=
    gram_removeAll (by decide) (gram_removeAll (by decide) h)
  rw [normalizeDoc, hstrip, docStage1_tag, docStage2]
  exact pyStrip_sandwich (by decide) (by decide) (gram_pyStrip hB)

lemma normalizeDoc_fenceBare {inner : List Char} (h : Gram GK.val inner) :
    normalizeDoc (fenceBare inner) =
      removeAll fenceWord (removeAll fenceJsonWord inner) := by
  have hstrip : pyStrip (fenceBare inner) = fenceBare inner := by
    rw [fenceBare, show fenceWord = tick :: [tick, tick] from rfl]
    exact pyStrip_fence _ inner
  have hB : Gram GK.val (removeAll fenceWord (removeAll fenceJsonWord inner)) :=
    gram_removeAll (by decide) (gram_removeAll (by decide) h)
  rw [normalizeDoc, hstrip, docStage1_bare,
    show fenceWord ++ '\n' :: (removeAll fenceJsonWord inner ++ '\n' :: fenceWord) =
      fenceWord ++ ('\n' :: (removeAll fenceJsonWord inner ++ '\n' :: fenceWord)) from rfl,
    show (fenceWord : List Char) = tick :: [tick, tick] from rfl, removeAll_self_head,
    show (tick :: [tick, tick] : List Char) = fenceWord from rfl, docStage2]
  exact pyStrip_sandwich (by decide) (by decide) (gram_pyStrip hB)

lemma dealFilter_tag (inner : List Char) :
    removeAll [tick] (fenceTag inner) =
      'j' :: 's' :: 'o' :: 'n' :: '\n' :: (removeAll [tick] inner ++ ['\n']) := by
  have hj : (('j' : Char) != tick) = true := by decide
  have hs2 : (('s' : Char) != tick) = true := by decide
  have ho : (('o' : Char) != tick) = true := by decide
  have hn : (('n' : Char) != tick) = true := by decide
  have hnl : (('\n' : Char) != tick) = true := by decide
  have ht : ((tick : Char) != tick) = false := by decide
  rw [removeAll_single, removeAll_single]
  simp [fenceTag, fj_cons, fw_cons, List.filter_append, List.filter_cons,
    hj, hs2, ho, hn, hnl, ht]

lemma dealFilter_bare (inner : List Char) :
    removeAll [tick] (fenceBare inner) = '\n' :: (removeAll [tick] inner ++ ['\n']) := by
  have hnl : (('\n' : Char) != tick) = true := by decide
  have ht : ((tick : Char) != tick) = false := by decide
  rw [removeAll_single, removeAll_single]
  simp [fenceBare, fw_cons, List.filter_append, List.filter_cons, hnl, ht]

lemma dealDrop_tag (X : List Char) :
    ('j' :: 's' :: 'o' :: 'n' :: '\n' :: X).dropWhile isJsonTagChar = '\n' :: X := by
  have e1 : isJsonTagChar 'j' = true := by decide
  have e2 : isJsonTagChar 's' = true := by decide
  have e3 : isJsonTagChar 'o' = true := by decide
  have e4 : isJsonTagChar 'n' = true := by decide
  have e5 : isJsonTagChar '\n' = false := by decide
  simp [List.dropWhile_cons, e1, e2, e3, e4, e5]

lemma dealDrop_bare (X : List Char) :
    ('\n' :: X).dropWhile isJsonTagChar = '\n' :: X := by
  have e5 : isJsonTagChar '\n' = false := by decide
  simp [List.dropWhile_cons, e5]

lemma normalizeDeal_fenceTag {inner : List Char} (h : Gram GK.val inner) :
    normalizeDeal (fenceTag inner) = removeAll [tick] inner := by
  have hstrip : pyStrip (fenceTag inner) = fenceTag inner := by
    rw [fenceTag, fj_cons]
    exact pyStrip_fence _ inner
  have hA : Gram GK.val (removeAll [tick] inner) := gram_removeAll (by decide) h
  rw [normalizeDeal, hstrip, dealFilter_tag, dealDrop_tag]
  exact pyStrip_sandwich (by decide) (by decide) (gram_pyStrip hA)

lemma normalizeDeal_fenceBare {inner : List Char} (h : Gram GK.val inner) :
    normalizeDeal (fenceBare inner) = removeAll [tick] inner := by
  have hstrip : pyStrip (fenceBare inner) = fenceBare inner := by
    rw [fenceBare, fw_cons]
    exact pyStrip_fence _ inner
  have hA : Gram GK.val (removeAll [tick] inner) := gram_removeAll (by decide) h
  rw [normalizeDeal, hstrip, dealFilter_bare, dealDrop_bare]
  exact pyStrip_sandwich (by decide) (by decide) (gram_pyStrip hA)

/-- Ws holds of the empty run. -/
lemma ws_nil : Ws ([] : List Char) := fun c hc => absurd hc (List.not_mem_nil c)

/-- A grammar derivation for the JSON text of the spec example. -/
lemma gram_example_obj : Gram GK.val ['{', '"', 'a', '"', ':', '1', '}'] := by
  have hb : StrBody ['a'] := StrBody.plain 'a' [] (by decide) StrBody.nil
  have hnum : IsNum ['1'] :=
    ⟨[], ['1'], [], [], by simp, Or.inl rfl,
      Or.inr ⟨'1', [], rfl, by decide, fun c hc => absurd hc (List.not_mem_nil c)⟩,
      Or.inl rfl, Or.inl rfl⟩
  have hv : Gram GK.val ['1'] := Gram.numLit _ hnum
  have hm : Gram GK.members (['"', 'a', '"', ':', '1'] : List Char) := by
    have h0 := Gram.membersOne [] ['a'] [] [] ['1'] [] ws_nil hb ws_nil ws_nil hv ws_nil
    simpa using h0
  have h1 := Gram.objCons _ hm
  simpa using h1

/-! ### Idempotence facts for the deal normalizer -/

lemma pyStrip_as_rdrop (s : List Char) :
    pyStrip s = List.rdropWhile isPySpace (s.dropWhile isPySpace) := rfl

lemma dropWhile_rdrop_eq_self {u : List Char} (hu : u.dropWhile isPySpace = u) :
    (List.rdropWhile isPySpace u).dropWhile isPySpace = List.rdropWhile isPySpace u := by
  cases hr : List.rdropWhile isPySpace u with
  | nil => rfl
  | cons c v =>
    obtain ⟨t, ht⟩ := List.rdropWhile_prefix isPySpace u
    rw [hr] at ht
    have hcs : isPySpace c = false := by
      cases hx : isPySpace c with
      | false => rfl
      | true =>
        exfalso
        have hu2 : u = c :: (v ++ t) := by rw [← ht]; rfl
        rw [hu2, List.dropWhile_cons, hx] at hu
        simp only [if_true] at hu
        have hl : ((v ++ t).dropWhile isPySpace).length ≤ (v ++ t).length :=
          (List.dropWhile_sublist isPySpace).length_le
        rw [hu] at hl
        simp at hl
    simp [List.dropWhile_cons, hcs]

lemma pyStrip_idem (s : List Char) : pyStrip (pyStrip s) = pyStrip s := by
  rw [pyStrip_as_rdrop s, pyStrip_as_rdrop,
    dropWhile_rdrop_eq_self (List.dropWhile_idempotent isPySpace s)]
  exact List.rdropWhile_idempotent isPySpace _

lemma mem_dropWhile_imp {c : Char} {p : Char → Bool} {l : List Char}
    (h : c ∈ l.dropWhile p) : c ∈ l := by
  rw [← List.takeWhile_append_dropWhile p l]
  exact List.mem_append_right _ h

lemma mem_pyStrip_imp {c : Char} {s : List Char} (h : c ∈ pyStrip s) : c ∈ s := by
  rw [pyStrip_as_rdrop] at h
  obtain ⟨t, ht⟩ := List.rdropWhile_prefix isPySpace (s.dropWhile isPySpace)
  have h2 : c ∈ s.dropWhile isPySpace := by
    rw [← ht]
    exact List.mem_append_left _ h
  exact mem_dropWhile_imp h2

/-- The deal/buyout normalizer written as the character operations it
performs: trim, delete every backtick, delete every leading character from
the set of `"json"`, trim again. -/
lemma normalizeDeal_char_ops (s : List Char) :
    normalizeDeal s =
      pyStrip (((pyStrip s).filter (fun c => c != tick)).dropWhile isJsonTagChar) := by
  rw [normalizeDeal, removeAll_single]

lemma normalizeDeal_no_tick (s : List Char) : tick ∉ normalizeDeal s := by
  intro hm
  rw [normalizeDeal_char_ops] at hm
  have h1 := mem_dropWhile_imp (mem_pyStrip_imp hm)
  have h3 := (List.mem_filter.mp h1).2
  simp at h3

lemma normalizeDeal_idem_core {s : List Char}
    (h : ∀ c, (normalizeDeal s).head? = some c → isJsonTagChar c = false) :
    normalizeDeal (normalizeDeal s) = normalizeDeal s := by
  have hy : pyStrip (normalizeDeal s) = normalizeDeal s := by
    rw [normalizeDeal]
    exact pyStrip_idem _
  have hfil : (normalizeDeal s).filter (fun c => c != tick) = normalizeDeal s := by
    apply List.filter_eq_self.mpr
    intro c hc
    have : c ≠ tick := fun he => normalizeDeal_no_tick s (he ▸ hc)
    simp [bne_iff_ne, this]
  have hdw : (normalizeDeal s).dropWhile isJsonTagChar = normalizeDeal s := by
    cases hc : normalizeDeal s with
    | nil => rfl
    | cons c rest =>
      have hch := h c (by rw [hc]; rfl)
      simp [List.dropWhile_cons, hch]
  rw [normalizeDeal_char_ops (normalizeDeal s), hy, hfil, hdw, hy]

/-! ## Claims -/

/-- C1, counterexample. The claim describes one normalizer that removes all
backticks and then strips exactly a case-insensitive `json` prefix, leaving
everything else unmodified (`specNormalize` transcribes the claim). The
deal/buyout normalizer (source lines 110/144) instead strips every leading
character drawn from the character set of `"json"`: on input `n` it returns
the empty string where the claimed algorithm returns `n`. The document
normalizer (source line 87) does not remove stray single backticks at all:
on a lone backtick it returns the backtick where the claimed algorithm
returns the empty string. -/
theorem c1_counterexample :
    normalizeDeal ['n'] ≠ specNormalize ['n'] ∧
      normalizeDoc [tick] ≠ specNormalize [tick] := by
  constructor <;> decide

/-- C1, amended: the deal/buyout normalizer trims, removes every backtick
character, then strips every leading character drawn from the set
{j, s, o, n} (lowercase only — not the exact prefix `json`, and not
case-insensitively) and re-trims; the document normalizer removes only the
literal sequences of a tagged or bare triple fence and leaves stray single
backticks in place. -/
theorem c1_amended :
    (∀ s, normalizeDeal s =
      pyStrip (((pyStrip s).filter (fun c => c != tick)).dropWhile isJsonTagChar)) ∧
      normalizeDoc [tick, 'x', tick] = [tick, 'x', tick] :=
  ⟨normalizeDeal_char_ops, by decide⟩

/-- C2, counterexample: the deal/buyout normalizer is not idempotent for
every input: on `j n` one application yields `n` and a second application
yields the empty string. -/
theorem c2_counterexample :
    normalizeDeal (normalizeDeal ['j', ' ', 'n']) ≠ normalizeDeal ['j', ' ', 'n'] := by
  decide

/-- C2, amended: the normalizer is idempotent at every input whose
normalized form is empty or does not begin with one of the characters
`j`, `s`, `o`, `n` (the `headD` default `\n` covers the empty case); in
particular it is idempotent on outputs beginning with `{` or `[`. -/
theorem c2_amended (s : List Char)
    (h : isJsonTagChar ((normalizeDeal s).headD '\n') = false) :
    normalizeDeal (normalizeDeal s) = normalizeDeal s := by
  apply normalizeDeal_idem_core
  intro c hc
  cases he : normalizeDeal s with
  | nil => rw [he] at hc; simp at hc
  | cons c' rest =>
    rw [he] at hc h
    have hcc : c = c' := by
      rw [show (c' :: rest).head? = some c' from rfl] at hc
      injection hc with hc
      exact hc.symm
    subst hcc
    exact h

/-- Witness for C2 amended, at the already-clean input `{1}`. -/
theorem c2_amended_witness :
    isJsonTagChar ((normalizeDeal ['{', '1', '}']).headD '\n') = false ∧
      normalizeDeal (normalizeDeal ['{', '1', '}']) = normalizeDeal ['{', '1', '}'] :=
  ⟨by decide, c2_amended ['{', '1', '}'] (by decide)⟩

/-- C3: for every raw completion text consisting of valid JSON (`Gram
GK.val inner`, the JSON grammar) wrapped in triple-backtick fences, with or
without a leading `json` language tag, each of the two normalizers strips
the fence and tag so that the result again parses as JSON (derives
`Gram GK.val`). -/
theorem c3_fenced_json_parses (inner : List Char) (h : Gram GK.val inner) :
    Gram GK.val (normalizeDoc (fenceTag inner)) ∧
      Gram GK.val (normalizeDoc (fenceBare inner)) ∧
      Gram GK.val (normalizeDeal (fenceTag inner)) ∧
      Gram GK.val (normalizeDeal (fenceBare inner)) := by
  have hdoc : Gram GK.val (removeAll fenceWord (removeAll fenceJsonWord inner)) :=
    gram_removeAll (by decide) (gram_removeAll (by decide) h)
  have hdeal : Gram GK.val (removeAll [tick] inner) := gram_removeAll (by decide) h
  refine ⟨?_, ?_, ?_, ?_⟩
  · rw [normalizeDoc_fenceTag h]; exact hdoc
  · rw [normalizeDoc_fenceBare h]; exact hdoc
  · rw [normalizeDeal_fenceTag h]; exact hdeal
  · rw [normalizeDeal_fenceBare h]; exact hdeal

/-- Witness for C3, at the inner JSON text of the spec example. -/
theorem c3_fenced_json_parses_witness :
    Gram GK.val ['{', '"', 'a', '"', ':', '1', '}'] ∧
      Gram GK.val (normalizeDoc (fenceTag ['{', '"', 'a', '"', ':', '1', '}'])) :=
  ⟨gram_example_obj, (c3_fenced_json_parses _ gram_example_obj).1⟩

/-- C4, counterexample: a completion candidate parsing to the list
`["Иванов"]` is accepted by the document-extraction endpoint (returned as a
200 body), not rejected with a `WrongShape` error as the claim states: the
code performs no shape check at all. -/
theorem c4_counterexample :
    (api_recognize_documents
        (fun _ _ => some ['[', '"', 'И', 'в', 'а', 'н', 'о', 'в', '"', ']'])
        [] ['Р', 'Ф']).1 =
      ApiResult.ok (Json.arr [Json.str ['И', 'в', 'а', 'н', 'о', 'в']]) ∧
      (api_recognize_documents
        (fun _ _ => some ['[', '"', 'И', 'в', 'а', 'н', 'о', 'в', '"', ']'])
        [] ['Р', 'Ф']).1 ≠ ApiResult.err 500 :=
  ⟨rfl, fun h => ApiResult.noConfusion h⟩

/-- C4, amended: document-extraction "validation" is a JSON parse followed
by a Python truthiness test — every candidate parsing to a truthy JSON value
of any type (non-empty objects regardless of keys, but equally non-empty
lists and non-zero scalars) is returned as a 200 success, and every
falsy-parsing candidate (including the empty object) and every parse
failure yields HTTP 500; no `WrongShape` distinction exists. -/
theorem c4_amended (backend : PromptKind → List Img → Option (List Char))
    (raw : List Char) (images : List (List Char)) (country : List Char) (v : Json)
    (hb : backend (selectPrompt country) images = some raw)
    (hp : json_loads (normalizeDoc raw) = some v) :
    (api_recognize_documents backend images country).1 =
      (if jsonTruthy v then ApiResult.ok v else ApiResult.err 500) := by
  unfold api_recognize_documents recognize_documents_with_gemini
  simp only [hb, hp]

/-- Witness for C4 amended, at the list candidate `["Иванов"]`. -/
theorem c4_amended_witness :
    json_loads (normalizeDoc ['[', '"', 'И', 'в', 'а', 'н', 'о', 'в', '"', ']']) =
      some (Json.arr [Json.str ['И', 'в', 'а', 'н', 'о', 'в']]) ∧
      (api_recognize_documents
          (fun _ _ => some ['[', '"', 'И', 'в', 'а', 'н', 'о', 'в', '"', ']'])
          [] ['Р', 'Ф']).1 =
        (if jsonTruthy (Json.arr [Json.str ['И', 'в', 'а', 'н', 'о', 'в']]) then
          ApiResult.ok (Json.arr [Json.str ['И', 'в', 'а', 'н', 'о', 'в']])
        else ApiResult.err 500) :=
  ⟨rfl, c4_amended _ _ _ _ _ rfl rfl⟩

/-- C5, counterexample: a buyout-plan candidate parsing to
`{"plan_1": 123}` — a non-empty object whose value is a scalar — is accepted
by the endpoint as a 200 success, not rejected with a `WrongShape` error as
the claim states: no per-value object check exists in the code. -/
theorem c5_counterexample :
    api_generate_buyout_plans
        (some ['{', '"', 'p', 'l', 'a', 'n', '_', '1', '"', ':', ' ', '1', '2', '3', '}']) =
      ApiResult.ok (Json.obj [(['p', 'l', 'a', 'n', '_', '1'], Json.num 123 0)]) ∧
      api_generate_buyout_plans
        (some ['{', '"', 'p', 'l', 'a', 'n', '_', '1', '"', ':', ' ', '1', '2', '3', '}']) ≠
        ApiResult.err 400 :=
  ⟨rfl, fun h => ApiResult.noConfusion h⟩

/-- C5, amended: buyout-plan "validation" is a JSON parse followed by a
Python truthiness test — any truthy parsed value (e.g. a non-empty object
with scalar values, or a non-empty list) is returned as a 200 success; the
empty object `{}` is rejected with HTTP 400, but only because it is falsy,
and parse failures also yield 400; no per-value object check exists. -/
theorem c5_amended (raw : List Char) (v : Json)
    (hp : json_loads (normalizeDeal raw) = some v) :
    api_generate_buyout_plans (some raw) =
      (if jsonTruthy v then ApiResult.ok v else ApiResult.err 400) := by
  unfold api_generate_buyout_plans get_buyout_plans_with_gemini
  simp only [hp]

/-- Witness for C5 amended, at the empty object (falsy, hence 400). -/
theorem c5_amended_witness :
    json_loads (normalizeDeal ['{', '}']) = some (Json.obj []) ∧
      api_generate_buyout_plans (some ['{', '}']) =
        (if jsonTruthy (Json.obj []) then ApiResult.ok (Json.obj []) else ApiResult.err 400) :=
  ⟨rfl, c5_amended _ _ rfl⟩

/-- C6: for every candidate string that is not syntactically valid JSON the
parse step yields `none` (the model of a caught `JSONDecodeError` — the code
catches the exception and returns `None` rather than crashing), and the
endpoint handler converts this to the client-visible HTTP 400 error rather
than propagating an exception. -/
theorem c6_malformed_yields_400 (raw : List Char)
    (h : json_loads (normalizeDeal raw) = none) :
    api_parse_deal (some raw) = ApiResult.err 400 := by
  unfold api_parse_deal parse_custom_deal_with_gemini
  simp only [h]

/-- Witness for C6, at the malformed candidate of the spec example. -/
theorem c6_witness :
    json_loads (normalizeDeal ['{', '"', 'a', '"', ':']) = none ∧
      api_parse_deal (some ['{', '"', 'a', '"', ':']) = ApiResult.err 400 :=
  ⟨rfl, c6_malformed_yields_400 _ rfl⟩

/-- C7: for every notify request whose supplied header secret (including an
absent header, `none`) differs from the configured shared secret, the
handler returns 401 regardless of the payload, and the Telegram upstream
call is never invoked (the call flag is `false`). -/
theorem c7_unauthorized (headerSecret : Option (List Char)) (internalSecret : List Char)
    (req : NotifyRequest) (telegram : NotifyRequest → TgOutcome)
    (h : headerSecret ≠ some internalSecret) :
    notify_user headerSecret internalSecret req telegram = (ApiResult.err 401, false) := by
  unfold notify_user
  rw [if_neg h]

/-- Witness for C7, with an absent header secret. -/
theorem c7_witness :
    (none : Option (List Char)) ≠ some ['x'] ∧
      notify_user none ['x'] ⟨1, []⟩ (fun _ => TgOutcome.okSent) =
        (ApiResult.err 401, false) :=
  ⟨by decide, c7_unauthorized none ['x'] ⟨1, []⟩ (fun _ => TgOutcome.okSent) (by decide)⟩

/-- C8, counterexample: with an empty images sequence the handler still
invokes the completion backend (exactly one call is made) and, when the
completion fails, returns HTTP 500 and not the claimed 400: the code has no
empty-images check at all. -/
theorem c8_counterexample :
    (api_recognize_documents (fun _ _ => none) [] ['Р', 'Ф']).2.length = 1 ∧
      (api_recognize_documents (fun _ _ => none) [] ['Р', 'Ф']).1 = ApiResult.err 500 ∧
      (api_recognize_documents (fun _ _ => none) [] ['Р', 'Ф']).1 ≠ ApiResult.err 400 := by
  refine ⟨rfl, rfl, ?_⟩
  intro h
  have h2 : ApiResult.err 500 = ApiResult.err 400 := h
  injection h2 with h3
  exact absurd h3 (by decide)

/-- C8, amended: the handler performs no empty-images check: for every
backend and country it makes exactly one completion call even when the
images sequence is empty, and a completion failure yields HTTP 500 with a
message (there is no 400 empty-images response). -/
theorem c8_amended (backend : PromptKind → List Img → Option (List Char))
    (country : List Char) :
    (api_recognize_documents backend [] country).2.length = 1 ∧
      (backend (selectPrompt country) [] = none →
        (api_recognize_documents backend [] country).1 = ApiResult.err 500) := by
  refine ⟨rfl, ?_⟩
  intro hb
  unfold api_recognize_documents recognize_documents_with_gemini
  simp only [hb]

/-- Witness for C8 amended, with a failing backend. -/
theorem c8_amended_witness :
    (api_recognize_documents (fun _ _ => none) [] []).2.length = 1 ∧
      (api_recognize_documents (fun _ _ => none) [] []).1 = ApiResult.err 500 :=
  ⟨(c8_amended (fun _ _ => none) []).1, (c8_amended (fun _ _ => none) []).2 rfl⟩

/-- C9: the country discriminant is not validated as a two-valued enum: for
every country string not exactly equal to `РФ` (including the empty string),
the handler silently selects the foreign prompt and still makes its one
backend call with that prompt — no rejection path exists. -/
theorem c9_country_not_validated (country : List Char) (h : country ≠ rfCountry)
    (backend : PromptKind → List Img → Option (List Char)) (imgs : List (List Char)) :
    selectPrompt country = PromptKind.foreign ∧
      (api_recognize_documents backend imgs country).2 = [(PromptKind.foreign, imgs)] := by
  have hsel : selectPrompt country = PromptKind.foreign := by
    unfold selectPrompt
    rw [if_neg h]
  refine ⟨hsel, ?_⟩
  unfold api_recognize_documents recognize_documents_with_gemini
  simp only [hsel]

/-- Witness for C9, at the empty country string. -/
theorem c9_witness :
    ([] : List Char) ≠ rfCountry ∧
      (selectPrompt [] = PromptKind.foreign ∧
        (api_recognize_documents (fun _ _ => none) [] []).2 = [(PromptKind.foreign, [])]) :=
  ⟨by decide, c9_country_not_validated [] (by decide) (fun _ _ => none) []⟩

/-- C10: each of the three Gemini endpoints decides success by Python
truthiness of the parsed value: when the normalized completion parses to a
value `v`, the endpoint returns `v` as a 200 body exactly when `v` is truthy,
and otherwise reports failure (500 for document recognition, 400 for the
other two) even though parsing succeeded. -/
theorem c10_truthiness_decides (raw : List Char) (images : List (List Char))
    (country : List Char) :
    (∀ v, json_loads (normalizeDoc raw) = some v →
      (api_recognize_documents (fun _ _ => some raw) images country).1 =
        (if jsonTruthy v then ApiResult.ok v else ApiResult.err 500)) ∧
    (∀ v, json_loads (normalizeDeal raw) = some v →
      api_parse_deal (some raw) =
        (if jsonTruthy v then ApiResult.ok v else ApiResult.err 400)) ∧
    (∀ v, json_loads (normalizeDeal raw) = some v →
      api_generate_buyout_plans (some raw) =
        (if jsonTruthy v then ApiResult.ok v else ApiResult.err 400)) := by
  refine ⟨?_, ?_, ?_⟩ <;> intro v hv
  · unfold api_recognize_documents recognize_documents_with_gemini
    simp only [hv]
  · unfold api_parse_deal parse_custom_deal_with_gemini
    simp only [hv]
  · unfold api_generate_buyout_plans get_buyout_plans_with_gemini
    simp only [hv]

/-- Witness for C10, at the falsy-parsing completion `0`. -/
theorem c10_witness :
    json_loads (normalizeDoc ['0']) = some (Json.num 0 0) ∧
      (api_recognize_documents (fun _ _ => some ['0']) [] []).1 =
        (if jsonTruthy (Json.num 0 0) then ApiResult.ok (Json.num 0 0)
         else ApiResult.err 500) ∧
      api_parse_deal (some ['0']) =
        (if jsonTruthy (Json.num 0 0) then ApiResult.ok (Json.num 0 0)
         else ApiResult.err 400) :=
  ⟨rfl, (c10_truthiness_decides ['0'] [] []).1 _ rfl,
    (c10_truthiness_decides ['0'] [] []).2.1 _ rfl⟩
